import Mathlib

/-!
Verification development for the skeletor-py video matting pipeline
(modules: `config.py`, `pose_detector.py`, `masking.py`, `video_processor.py`).

The Python source is shallowly embedded:
* keypoints and poses are rational-valued records (`KP`, `Person`);
* the mask-synthesis stage of `create_mask` is embedded as a list of
  drawing commands (`DrawOp`) rasterised onto a zero mask, followed by the
  dilation / blur post-passes;
* `apply_mask` is embedded pixelwise with exact rational arithmetic in
  place of numpy float32 arithmetic;
* the ordered-write loop of `process_video` is embedded as a small state
  machine (`PState`) driven by an arbitrary arrival order of worker results.

Machine floats (`0.8`, `/255.0`, aspect ratios) are modelled by exact
rationals; `int(...)` is modelled by truncation toward zero.
-/

namespace Skeletor

/-- Truncation toward zero of a rational, the model of Python `int(q)`. -/
def pyInt (q : ℚ) : ℤ := if 0 ≤ q then ⌊q⌋ else -⌊-q⌋

/-- A keypoint `(y, x, score)` as produced by `detect_pose`
(float32 triple in the source, modelled with exact rationals). -/
structure KP where
  y : ℚ
  x : ℚ
  s : ℚ
  deriving DecidableEq

/-- One detected person: 17 keypoints in the fixed MoveNet ordering of
`KEYPOINT_DICT` in `config.py`. -/
abbrev Person := Fin 17 → KP

/-- `SKELETON_LINES` from `config.py`: the 12 fixed anatomical edges,
written with the numeric indices of `KEYPOINT_DICT`. -/
def SKELETON_LINES : List (Fin 17 × Fin 17) :=
  [(5, 6), (5, 7), (6, 8), (7, 9), (8, 10), (5, 11), (6, 12), (11, 12),
   (11, 13), (12, 14), (13, 15), (14, 16)]

/-- The joint indices circled by step 3 of `create_mask`:
`head_indices` (nose, eyes, ears) followed by `limb_joint_indices`
(elbows, wrists, knees, ankles). -/
def jointIndices : List (Fin 17) :=
  [0, 1, 2, 3, 4, 7, 8, 9, 10, 13, 14, 15, 16]

/-- `joint_radius = max(1, int(radius * 0.8))` from `create_mask`
(`radius` is an `int` CLI argument; the float literal `0.8` is modelled
by the exact rational `4/5`, and `int` by truncation, which here is
natural-number division). -/
def jointRadius (radius : ℕ) : ℕ := max 1 (radius * 4 / 5)

/-- An OpenCV-pixel point `(x, y)` obtained from a keypoint the way
`create_mask` does it: `(int(kp[1]), int(kp[0]))`. -/
def kpPoint (k : KP) : ℤ × ℤ := (pyInt k.x, pyInt k.y)

/-- A drawing command issued by `create_mask` onto the mask
(`cv2.fillPoly`, `cv2.line`, `cv2.circle` with value 255). -/
inductive DrawOp where
  | fillPoly (pts : List (ℤ × ℤ))
  | line (p1 p2 : ℤ × ℤ) (thickness : ℕ)
  | circle (center : ℤ × ℤ) (radius : ℕ)
  deriving DecidableEq

/-- Step 1 of `create_mask`: the torso quadrilateral
(left-shoulder 5, right-shoulder 6, right-hip 12, left-hip 11) is filled
iff all four torso confidences strictly exceed the threshold. -/
def torsoOp (t : ℚ) (p : Person) : List DrawOp :=
  if (p 5).s > t ∧ (p 6).s > t ∧ (p 11).s > t ∧ (p 12).s > t then
    [DrawOp.fillPoly [kpPoint (p 5), kpPoint (p 6), kpPoint (p 12), kpPoint (p 11)]]
  else []

/-- Step 2 of `create_mask`, one iteration of the `SKELETON_LINES` loop:
the edge is drawn with thickness `line_thickness = joint_radius` iff both
endpoint confidences strictly exceed the threshold. -/
def edgeOp (t : ℚ) (radius : ℕ) (p : Person) (e : Fin 17 × Fin 17) : Option DrawOp :=
  if (p e.1).s > t ∧ (p e.2).s > t then
    some (DrawOp.line (kpPoint (p e.1)) (kpPoint (p e.2)) (jointRadius radius))
  else none

/-- Step 3 of `create_mask`, one joint: a filled disk of radius
`joint_radius` iff the joint confidence strictly exceeds the threshold
(both branches of the cache `if`/`elif` in the source draw the same
circle at the same point). -/
def jointOp (t : ℚ) (radius : ℕ) (p : Person) (i : Fin 17) : Option DrawOp :=
  if (p i).s > t then some (DrawOp.circle (kpPoint (p i)) (jointRadius radius))
  else none

/-- All drawing commands emitted for one person, in source order:
torso fill, then skeleton edges, then joint circles. -/
def personOps (t : ℚ) (radius : ℕ) (p : Person) : List DrawOp :=
  torsoOp t p ++ SKELETON_LINES.filterMap (edgeOp t radius p)
    ++ jointIndices.filterMap (jointOp t radius p)

/-- All drawing commands emitted by `create_mask` for a pose list
(the `for person_kps in persons_keypoints` loop). -/
def createMaskOps (ps : List Person) (t : ℚ) (radius : ℕ) : List DrawOp :=
  ps.flatMap (personOps t radius)

/-! ### Rasterisation model of the OpenCV drawing primitives

`cv2.fillPoly` / `cv2.line` / `cv2.circle` are external library
primitives; they are modelled by their documented geometry: even-odd
polygon fill, a thick segment as the set of points within half the
thickness of the segment, and a filled disk. -/

/-- Squared euclidean distance between two rational points. -/
def sqDist (a b : ℚ × ℚ) : ℚ := (a.1 - b.1) ^ 2 + (a.2 - b.2) ^ 2

/-- Squared distance from a point to the segment `[a, b]`
(projection parameter clamped to `[0, 1]`). -/
def sqDistSeg (pt a b : ℚ × ℚ) : ℚ :=
  let d : ℚ × ℚ := (b.1 - a.1, b.2 - a.2)
  let len2 : ℚ := d.1 ^ 2 + d.2 ^ 2
  if len2 = 0 then sqDist pt a
  else
    let u : ℚ := max 0 (min 1 (((pt.1 - a.1) * d.1 + (pt.2 - a.2) * d.2) / len2))
    sqDist pt (a.1 + u * d.1, a.2 + u * d.2)

/-- Does the horizontal ray from `(px, py)` toward positive x cross the
segment `[a, b]`?  (Half-open rule of the even-odd fill.) -/
def raySegCross (px py : ℚ) (a b : ℤ × ℤ) : Bool :=
  let yA : ℚ := (a.2 : ℚ)
  let yB : ℚ := (b.2 : ℚ)
  if (yA ≤ py ∧ py < yB) ∨ (yB ≤ py ∧ py < yA) then
    decide (px < (a.1 : ℚ) + (py - yA) * ((b.1 : ℚ) - (a.1 : ℚ)) / (yB - yA))
  else false

/-- The closed edge list of a polygon (each vertex to the next, last
back to first). -/
def polyEdges (pts : List (ℤ × ℤ)) : List ((ℤ × ℤ) × (ℤ × ℤ)) :=
  match pts with
  | [] => []
  | p0 :: _ => pts.zip (pts.drop 1 ++ [p0])

/-- Even-odd polygon membership (model of `cv2.fillPoly`). -/
def inPoly (px py : ℚ) (pts : List (ℤ × ℤ)) : Bool :=
  ((polyEdges pts).filter (fun e => raySegCross px py e.1 e.2)).length % 2 = 1

/-- Is the pixel `(x, y)` covered by a drawing command? -/
def coversPixel (op : DrawOp) (x y : ℕ) : Bool :=
  match op with
  | DrawOp.fillPoly pts => inPoly (x : ℚ) (y : ℚ) pts
  | DrawOp.line p1 p2 th =>
      decide (sqDistSeg ((x : ℚ), (y : ℚ)) ((p1.1 : ℚ), (p1.2 : ℚ)) ((p2.1 : ℚ), (p2.2 : ℚ))
        ≤ ((th : ℚ) / 2) ^ 2)
  | DrawOp.circle c r =>
      decide (sqDist ((x : ℚ), (y : ℚ)) ((c.1 : ℚ), (c.2 : ℚ)) ≤ ((r : ℕ) : ℚ) ^ 2)

/-- A single-channel uint8 image of the given height and width
(values meant to lie in `[0, 255]`). -/
structure Mask where
  h : ℕ
  w : ℕ
  data : ℕ → ℕ → ℕ

/-- `np.zeros(frame.shape[:2], dtype=np.uint8)`: the all-zero mask. -/
def zeroMask (h w : ℕ) : Mask := { h := h, w := w, data := fun _ _ => 0 }

/-- Rasterise a command list onto a mask: covered pixels become 255. -/
def rasterize (m : Mask) (ops : List DrawOp) : Mask :=
  { m with data := fun y x => if ops.any (fun op => coversPixel op x y) then 255 else m.data y x }

/-- Sample a mask at integer coordinates, 0 outside the bounds
(the neutral border of `cv2.dilate`). -/
def getPix (m : Mask) (y x : ℤ) : ℕ :=
  if 0 ≤ y ∧ y < (m.h : ℤ) ∧ 0 ≤ x ∧ x < (m.w : ℤ) then m.data y.toNat x.toNat else 0

/-- The 3×3 structuring-element offsets of `np.ones((3, 3))`. -/
def offsets3 : List (ℤ × ℤ) :=
  [(-1, -1), (-1, 0), (-1, 1), (0, -1), (0, 0), (0, 1), (1, -1), (1, 0), (1, 1)]

/-- One round of `cv2.dilate` with the 3×3 all-ones kernel: each pixel
becomes the maximum over its 3×3 neighbourhood. -/
def dilate3 (m : Mask) : Mask :=
  { m with data := fun y x =>
      (offsets3.map (fun d => getPix m ((y : ℤ) + d.1) ((x : ℤ) + d.2))).foldr max 0 }

/-- `cv2.dilate(mask, kernel, iterations=n)`. -/
def dilateN : ℕ → Mask → Mask
  | 0, m => m
  | n + 1, m => dilateN n (dilate3 m)

/-- Clamp an integer index into `[0, n-1]` (replicate border sampling
for the blur model). -/
def clampIdx (n : ℕ) (i : ℤ) : ℕ := (max 0 (min ((n : ℤ) - 1) i)).toNat

/-- Sample a mask with replicated borders. -/
def getPixClamp (m : Mask) (y x : ℤ) : ℕ := m.data (clampIdx m.h y) (clampIdx m.w x)

/-- Round a rational to the nearest natural (uint8 write-back of the
blur; negative values cannot occur). -/
def ratRound (q : ℚ) : ℕ := (round q).toNat

/-- Weighted sum of samples against a 1-D kernel. -/
def weightedSum (k : List ℚ) (f : ℕ → ℚ) : ℚ :=
  (k.enum.map (fun p => p.2 * f p.1)).sum

/-- The normalised positive 1-D smoothing kernel used to model
`cv2.GaussianBlur` coefficients (binomial weights; every property proved
below holds for any choice of coefficients, see `weightedSum_zero`). -/
def binomKernel (ksize : ℕ) : List ℚ :=
  (List.range ksize).map (fun i => ((Nat.choose (ksize - 1) i : ℕ) : ℚ) / 2 ^ (ksize - 1))

/-- Horizontal pass of the separable blur. -/
def convRow (k : List ℚ) (m : Mask) : Mask :=
  { m with data := fun y x =>
      ratRound (weightedSum k (fun i =>
        (getPixClamp m (y : ℤ) ((x : ℤ) + (i : ℤ) - (k.length / 2 : ℕ)) : ℚ))) }

/-- Vertical pass of the separable blur. -/
def convCol (k : List ℚ) (m : Mask) : Mask :=
  { m with data := fun y x =>
      ratRound (weightedSum k (fun i =>
        (getPixClamp m ((y : ℤ) + (i : ℤ) - (k.length / 2 : ℕ)) (x : ℤ) : ℚ))) }

/-- Model of `cv2.GaussianBlur(mask, (ksize, ksize), 0)` as a separable
convolution. -/
def gaussBlur (ksize : ℕ) (m : Mask) : Mask :=
  convCol (binomKernel ksize) (convRow (binomKernel ksize) m)

/-- The dilation half of step 4 of `create_mask`: applied only when
`dilation_iterations > 0`. -/
def dilStep (dilationIterations : ℕ) (m : Mask) : Mask :=
  if 0 < dilationIterations then dilateN dilationIterations m else m

/-- Step 4 of `create_mask`: dilate when `dilation_iterations > 0`, then
blur when `blur_kernel_size > 1`, forcing an even kernel size up to the
next odd one. -/
def postprocess (dilationIterations blurKernelSize : ℕ) (m : Mask) : Mask :=
  if 1 < blurKernelSize then
    gaussBlur (if blurKernelSize % 2 ≠ 0 then blurKernelSize else blurKernelSize + 1)
      (dilStep dilationIterations m)
  else dilStep dilationIterations m

/-- `create_mask` from `masking.py`: allocate a zero mask of the frame
dimensions, return it immediately on a `None` pose list, otherwise draw
every person (torso, edges, joints), then dilate and blur. -/
def create_mask (h w : ℕ) (persons : Option (List Person)) (t : ℚ)
    (radius dilationIterations blurKernelSize : ℕ) : Mask :=
  match persons with
  | none => zeroMask h w
  | some ps =>
      postprocess dilationIterations blurKernelSize
        (rasterize (zeroMask h w) (createMaskOps ps t radius))

/-! ### Compositor: `apply_mask` -/

/-- A dense image: height, width, channel count, and uint8 samples. -/
structure Img where
  h : ℕ
  w : ℕ
  c : ℕ
  data : ℕ → ℕ → ℕ → ℕ

/-- The per-channel colour arithmetic of `apply_mask` before the uint8
write-back: `frame * (mask/255) + 255 * (1 - mask/255)`
(foreground plus white background). -/
def applyMaskColorQ (cval m : ℕ) : ℚ :=
  (cval : ℚ) * ((m : ℚ) / 255) + 255 * (1 - (m : ℚ) / 255)

/-- `np.clip(q, 0, 255).astype(np.uint8)`: clamp then truncate. -/
def clipToUint8 (q : ℚ) : ℕ := (⌊max 0 (min 255 q)⌋).toNat

/-- `apply_mask` from `masking.py`: channels 0..2 are the blended colour
channels, channel 3 is the mask itself (the `cv2.merge` call). -/
def apply_mask (frame : Img) (mask : Mask) : Img :=
  { h := frame.h, w := frame.w, c := 4,
    data := fun y x ch =>
      if ch = 3 then mask.data y x
      else clipToUint8 (applyMaskColorQ (frame.data y x ch) (mask.data y x)) }

/-! ### CoordinateMapper: the letterbox transform of `detect_pose` -/

/-- `scale = min(model_input_size / h_proc, model_input_size / w_proc)`. -/
def letterboxScale (S h w : ℕ) : ℚ := min ((S : ℚ) / h) ((S : ℚ) / w)

/-- `new_h = int(h_proc * scale)`. -/
def newH (S h w : ℕ) : ℕ := (⌊(h : ℚ) * letterboxScale S h w⌋).toNat

/-- `new_w = int(w_proc * scale)`. -/
def newW (S h w : ℕ) : ℕ := (⌊(w : ℚ) * letterboxScale S h w⌋).toNat

/-- `pad_y = (model_input_size - new_h) // 2`. -/
def padY (S h w : ℕ) : ℕ := (S - newH S h w) / 2

/-- `pad_x = (model_input_size - new_w) // 2`. -/
def padX (S h w : ℕ) : ℕ := (S - newW S h w) / 2

/-- Forward letterbox transform (the preprocessing steps 1-5 of
`detect_pose`, idealised to exact arithmetic): the original pixel row
`y0` lands at canvas row `pad_y + y0 * scale`, normalised by `S`. -/
def fwdNormY (S h w y0 : ℕ) : ℚ :=
  ((padY S h w : ℚ) + (y0 : ℚ) * letterboxScale S h w) / S

/-- Forward letterbox transform for the column coordinate. -/
def fwdNormX (S h w x0 : ℕ) : ℚ :=
  ((padX S h w : ℚ) + (x0 : ℚ) * letterboxScale S h w) / S

/-- The inverse transform of `detect_pose`:
`clip((yNorm * S - pad_y) / scale, 0, h_proc - 1)`. -/
def deLetterboxY (S h w : ℕ) (ynorm : ℚ) : ℚ :=
  max 0 (min ((h : ℚ) - 1) ((ynorm * (S : ℚ) - (padY S h w : ℚ)) / letterboxScale S h w))

/-- The inverse transform of `detect_pose` for the column coordinate. -/
def deLetterboxX (S h w : ℕ) (xnorm : ℚ) : ℚ :=
  max 0 (min ((w : ℚ) - 1) ((xnorm * (S : ℚ) - (padX S h w : ℚ)) / letterboxScale S h w))

/-- The multi-pose branch of `detect_pose`, one person: scores are
always kept; keypoints whose score strictly exceeds the threshold get
de-letterboxed clipped pixel coordinates, the rest keep the zeros of the
pre-allocated array. -/
def multiPosePerson (S h w : ℕ) (t : ℚ) (raw : Person) : Person := fun i =>
  if (raw i).s > t then
    { y := deLetterboxY S h w (raw i).y, x := deLetterboxX S h w (raw i).x, s := (raw i).s }
  else
    { y := 0, x := 0, s := (raw i).s }

/-- The multi-pose branch of `detect_pose`, person loop: a person is
returned iff its whole-person score strictly exceeds the threshold. -/
def multiPoseOutput (S h w : ℕ) (t : ℚ) (dets : List (ℚ × Person)) : List Person :=
  (dets.filter (fun d => decide (d.1 > t))).map (fun d => multiPosePerson S h w t d.2)

/-! ### Output geometry of `process_video` -/

/-- The target-dimension computation of `process_video`: if a positive
processing width strictly smaller than the source width is configured,
the height is scaled by the aspect ratio (`int` truncation) and bumped
to the next even number; otherwise the source dimensions are kept. -/
def computeTargetDims (origW origH : ℕ) (processingWidth : Option ℤ) : ℕ × ℕ :=
  match processingWidth with
  | some pw =>
      if 0 < pw ∧ pw < (origW : ℤ) then
        let tw : ℕ := pw.toNat
        let th0 : ℕ := (⌊(tw : ℚ) * ((origH : ℚ) / (origW : ℚ))⌋).toNat
        (tw, if th0 % 2 = 0 then th0 else th0 + 1)
      else (origW, origH)
  | none => (origW, origH)

/-- The `round_to_even` function of the specification: truncate, then
bump an odd value to the next even one. -/
def roundToEven (q : ℚ) : ℕ :=
  let n := (⌊q⌋).toNat
  if n % 2 = 0 then n else n + 1

/-! ### Pipeline orchestrator: the ordered-write loop of `process_video` -/

/-- The validity test of the write loop:
`frame_to_write is not None and frame_to_write.shape == (target_h, target_w, 4)`. -/
def validFrame (th tw : ℕ) : Option Img → Bool
  | none => false
  | some f => f.h == th && f.w == tw && f.c == 4

/-- `np.zeros((target_h, target_w, 4), dtype=np.uint8)`: the blank
transparent frame substituted on a per-frame failure. -/
def blankImg (th tw : ℕ) : Img := { h := th, w := tw, c := 4, data := fun _ _ _ => 0 }

/-- `process_frame` from `video_processor.py`, seen from the pipeline:
the fallible body (resize, `detect_pose`, `create_mask`, `apply_mask`)
either returns a composited frame or raises; the surrounding
`try/except` turns a raise into a blank frame.  In both cases a pair
tagged with the submitted frame index is returned. -/
def process_frame (th tw idx : ℕ) (outcome : Except Unit Img) : ℕ × Img :=
  match outcome with
  | Except.ok r => (idx, r)
  | Except.error _ => (idx, blankImg th tw)

/-- The mutable state of the processing loop of `process_video`:
the `results` dict, the `next_frame_to_write` cursor, the sequence of
frame indices already piped to the sink, and `frames_written`. -/
structure PState where
  next : ℕ
  results : List (ℕ × Option Img)
  sinkIdx : List ℕ
  framesWritten : ℕ

/-- The initial loop state of `process_video`. -/
def initPState : PState := { next := 0, results := [], sinkIdx := [], framesWritten := 0 }

/-- Dictionary lookup in the `results` buffer (`next_frame_to_write in results`). -/
def dictGet {A : Type} : List (ℕ × A) → ℕ → Option A
  | [], _ => none
  | (k, v) :: rest, i => if k = i then some v else dictGet rest i

/-- Dictionary removal (`results.pop(next_frame_to_write)`): drops the
first entry with the given key. -/
def dictRemove {A : Type} : List (ℕ × A) → ℕ → List (ℕ × A)
  | [], _ => []
  | (k, v) :: rest, i => if k = i then rest else (k, v) :: dictRemove rest i

/-- One iteration of the ordered-write `while` loop, given the popped
result `r` for index `next`: write it to the sink and count it if it is
valid, otherwise skip the write; the cursor advances either way. -/
def writeStep (th tw : ℕ) (s : PState) (r : Option Img) : PState :=
  let s1 : PState := { s with results := dictRemove s.results s.next }
  if validFrame th tw r then
    { s1 with sinkIdx := s1.sinkIdx ++ [s1.next],
              framesWritten := s1.framesWritten + 1,
              next := s1.next + 1 }
  else { s1 with next := s1.next + 1 }

/-- The ordered-write `while next_frame_to_write in results` loop,
fuelled (one unit of fuel per buffered result suffices). -/
def drainLoop (th tw : ℕ) : ℕ → PState → PState
  | 0, s => s
  | fuel + 1, s =>
      match dictGet s.results s.next with
      | none => s
      | some r => drainLoop th tw fuel (writeStep th tw s r)

/-- Drain every contiguously available result into the sink. -/
def drainWrites (th tw : ℕ) (s : PState) : PState :=
  drainLoop th tw s.results.length s

/-- One turn of the processing loop on a completed worker result:
`results[frame_idx] = result_frame` followed by the ordered-write loop. -/
def pipeStep (th tw : ℕ) (s : PState) (a : ℕ × Option Img) : PState :=
  drainWrites th tw { s with results := s.results ++ [a] }

/-- The processing loop of `process_video`, abstracted over the order in
which worker results complete: results arrive one by one in the given
order, each insertion followed by the ordered-write drain. -/
def process_video_loop (th tw : ℕ) (arrivals : List (ℕ × Option Img)) : PState :=
  arrivals.foldl (pipeStep th tw) initPState

/-- The loop invariant of the ordered-write machinery, relative to the
set `arrived` of frame indices whose results have been inserted so far:
the sink has received exactly 0..next-1 in order, `frames_written`
equals the cursor, buffered keys are exactly the arrived indices not yet
written, every index below the cursor has arrived, and every buffered
result is valid. -/
def LoopInv (th tw : ℕ) (arrived : List ℕ) (s : PState) : Prop :=
  s.sinkIdx = List.range s.next ∧
  s.framesWritten = s.next ∧
  (s.results.map Prod.fst).Nodup ∧
  (∀ i, i ∈ s.results.map Prod.fst ↔ (i ∈ arrived ∧ s.next ≤ i)) ∧
  (∀ i, i < s.next → i ∈ arrived) ∧
  (∀ a ∈ s.results, validFrame th tw a.2 = true)

/-! ### Concrete demonstration inputs used by the witness theorems -/

/-- A pose with every keypoint at pixel (50, 60) and confidence 1. -/
def demoPose : Person := fun _ => { y := 50, x := 60, s := 1 }

/-- A raw normalised pose whose keypoint 0 has low confidence 1/4 and
whose other keypoints have confidence 1. -/
def demoRawPose : Person := fun i =>
  if i = 0 then { y := 1 / 2, x := 1 / 2, s := 1 / 4 } else { y := 1 / 2, x := 1 / 2, s := 1 }

/-- A loop state holding an invalid (None) buffered result for index 0. -/
def demoPState : PState := { next := 0, results := [(0, none)], sinkIdx := [], framesWritten := 0 }

/-- Three valid results completing in the order 1, 0, 2. -/
def demoArrivalsA : List (ℕ × Option Img) :=
  [(1, some (blankImg 2 2)), (0, some (blankImg 2 2)), (2, some (blankImg 2 2))]

/-- Worker outcomes where frame 0 raises and frame 1 succeeds. -/
def demoOutcome : ℕ → Except Unit Img := fun i =>
  if i = 0 then Except.error () else Except.ok (blankImg 2 2)

/-- The completed results of `demoOutcome` for a two-frame run. -/
def demoArrivalsB : List (ℕ × Option Img) :=
  [(0, some (blankImg 2 2)), (1, some (blankImg 2 2))]

/-! ## Theorems -/

/-- C3: for every original frame size H×W, model input size S and pixel
(y0, x0) with 0 ≤ y0 < H, 0 ≤ x0 < W, the forward letterbox transform
(scale = min(S/H, S/W), centred on an S×S canvas with padding computed
from that same scale) followed by the inverse transform of `detect_pose`
(multiply the normalised coordinate by S, subtract the padding, divide
by the scale, clip to the frame) reproduces (y0, x0) — here even exactly,
both when H, W ≤ S and when H, W > S. -/
theorem letterbox_roundtrip (S h w y0 x0 : ℕ) (hS : 0 < S) (hh : 0 < h) (hw : 0 < w)
    (hy : y0 < h) (hx : x0 < w) :
    deLetterboxY S h w (fwdNormY S h w y0) = y0 ∧
    deLetterboxX S h w (fwdNormX S h w x0) = x0 := by
  have hSq : ((S : ℚ)) ≠ 0 := by positivity
  have hhq : (0 : ℚ) < h := by exact_mod_cast hh
  have hwq : (0 : ℚ) < w := by exact_mod_cast hw
  have hSq' : (0 : ℚ) < S := by exact_mod_cast hS
  have hsc : 0 < letterboxScale S h w :=
    lt_min (div_pos hSq' hhq) (div_pos hSq' hwq)
  have hsc' : letterboxScale S h w ≠ 0 := ne_of_gt hsc
  constructor
  · unfold deLetterboxY fwdNormY
    rw [div_mul_cancel₀ _ hSq]
    have h1 : (padY S h w : ℚ) + (y0 : ℚ) * letterboxScale S h w - (padY S h w : ℚ)
        = (y0 : ℚ) * letterboxScale S h w := by ring
    rw [h1, mul_div_cancel_right₀ _ hsc']
    have hy1 : (y0 : ℚ) ≤ (h : ℚ) - 1 := by
      have : ((y0 : ℚ)) + 1 ≤ (h : ℚ) := by exact_mod_cast hy
      linarith
    rw [min_eq_right hy1, max_eq_right (by positivity)]
  · unfold deLetterboxX fwdNormX
    rw [div_mul_cancel₀ _ hSq]
    have h1 : (padX S h w : ℚ) + (x0 : ℚ) * letterboxScale S h w - (padX S h w : ℚ)
        = (x0 : ℚ) * letterboxScale S h w := by ring
    rw [h1, mul_div_cancel_right₀ _ hsc']
    have hx1 : (x0 : ℚ) ≤ (w : ℚ) - 1 := by
      have : ((x0 : ℚ)) + 1 ≤ (w : ℚ) := by exact_mod_cast hx
      linarith
    rw [min_eq_right hx1, max_eq_right (by positivity)]

/-- Witness for C3 at S = 256, H = 720, W = 1280, (y0, x0) = (100, 200). -/
theorem letterbox_roundtrip_witness :
    deLetterboxY 256 720 1280 (fwdNormY 256 720 1280 100) = 100 ∧
    deLetterboxX 256 720 1280 (fwdNormX 256 720 1280 200) = 200 :=
  letterbox_roundtrip 256 720 1280 100 200 (by decide) (by decide) (by decide)
    (by decide) (by decide)

/-- C5: in `process_video`, a configured processing width that is
positive and strictly smaller than the source width yields output
dimensions (processingWidth, round_to_even(sourceHeight *
processingWidth / sourceWidth)); otherwise the source dimensions are
kept. -/
theorem output_geometry (origW origH : ℕ) (pw : ℤ) :
    (0 < pw → pw < (origW : ℤ) →
      computeTargetDims origW origH (some pw)
        = (pw.toNat, roundToEven ((origH : ℚ) * (pw.toNat : ℚ) / (origW : ℚ)))) ∧
    (¬(0 < pw ∧ pw < (origW : ℤ)) →
      computeTargetDims origW origH (some pw) = (origW, origH)) ∧
    computeTargetDims origW origH none = (origW, origH) := by
  refine ⟨?_, ?_, rfl⟩
  · intro h1 h2
    have harg : ((pw.toNat : ℚ)) * ((origH : ℚ) / (origW : ℚ))
        = (origH : ℚ) * (pw.toNat : ℚ) / (origW : ℚ) := by ring
    simp only [computeTargetDims, if_pos (And.intro h1 h2), roundToEven, harg]
  · intro hneg
    simp only [computeTargetDims, if_neg hneg]

/-- Witness for C5 at a 1920×1080 source and processing width 500
(odd scaled height 281 bumped to 282). -/
theorem output_geometry_witness :
    computeTargetDims 1920 1080 (some 500)
      = ((500 : ℤ).toNat, roundToEven ((1080 : ℚ) * (((500 : ℤ).toNat : ℕ) : ℚ) / (1920 : ℚ))) :=
  (output_geometry 1920 1080 500).1 (by decide) (by decide)

/-- C4: in `create_mask`, a skeleton edge of the 12 fixed `SKELETON_LINES`
is drawn if and only if both endpoint confidences strictly exceed the
confidence threshold; a confidence exactly equal to the threshold means
the edge is not drawn. -/
theorem skeleton_edge_confidence_gating (t : ℚ) (radius : ℕ) (p : Person)
    (e : Fin 17 × Fin 17) (_he : e ∈ SKELETON_LINES) :
    SKELETON_LINES.length = 12 ∧
    ((edgeOp t radius p e).isSome ↔ ((p e.1).s > t ∧ (p e.2).s > t)) ∧
    (((p e.1).s = t ∨ (p e.2).s = t) → edgeOp t radius p e = none) := by
  refine ⟨rfl, ?_, ?_⟩
  · by_cases hcond : (p e.1).s > t ∧ (p e.2).s > t
    · rw [edgeOp, if_pos hcond]
      simpa using hcond
    · rw [edgeOp, if_neg hcond]
      simpa using hcond
  · intro heq
    rw [edgeOp, if_neg]
    rintro ⟨h1, h2⟩
    rcases heq with h | h
    · rw [h] at h1; exact lt_irrefl t h1
    · rw [h] at h2; exact lt_irrefl t h2

/-- Witness for C4 at the shoulder–shoulder edge of `demoPose`. -/
theorem skeleton_edge_confidence_gating_witness :
    (edgeOp 0 30 demoPose (5, 6)).isSome ↔
      ((demoPose (5, 6).1).s > 0 ∧ (demoPose (5, 6).2).s > 0) :=
  (skeleton_edge_confidence_gating 0 30 demoPose (5, 6) (by decide)).2.1

/-- Every drawing command of one person is a torso fill, a line of
thickness `joint_radius`, or a circle of radius `joint_radius`. -/
lemma personOps_shape (t : ℚ) (radius : ℕ) (p : Person) (op : DrawOp)
    (hop : op ∈ personOps t radius p) :
    (∃ pts, op = DrawOp.fillPoly pts) ∨
    (∃ a b, op = DrawOp.line a b (jointRadius radius)) ∨
    (∃ c, op = DrawOp.circle c (jointRadius radius)) := by
  unfold personOps at hop
  rcases List.mem_append.mp hop with h1 | h2
  · rcases List.mem_append.mp h1 with ht | he
    · left
      unfold torsoOp at ht
      split at ht
      · exact ⟨_, List.mem_singleton.mp ht⟩
      · simp at ht
    · right; left
      rcases List.mem_filterMap.mp he with ⟨e, _, heq⟩
      unfold edgeOp at heq
      split at heq
      · exact ⟨_, _, (Option.some_inj.mp heq).symm⟩
      · simp at heq
  · right; right
    rcases List.mem_filterMap.mp h2 with ⟨i, _, heq⟩
    unfold jointOp at heq
    split at heq
    · exact ⟨_, (Option.some_inj.mp heq).symm⟩
    · simp at heq

/-- C6 (amended): in `create_mask`, skeleton edge lines are drawn with
thickness max(1, int(radius*0.8)) and joint disks with radius
max(1, int(radius*0.8)) — truncation, not rounding to nearest, of
radius*0.8 (with the exact rational 4/5 for the float literal 0.8 this
is natural division radius*4/5). -/
theorem draw_thickness_trunc (t : ℚ) (radius : ℕ) (ps : List Person) (op : DrawOp)
    (hop : op ∈ createMaskOps ps t radius) :
    jointRadius radius = max 1 (radius * 4 / 5) ∧
    (∀ a b th, op = DrawOp.line a b th → th = max 1 (radius * 4 / 5)) ∧
    (∀ c r, op = DrawOp.circle c r → r = max 1 (radius * 4 / 5)) := by
  obtain ⟨p, _, hops⟩ := List.mem_flatMap.mp hop
  refine ⟨rfl, ?_, ?_⟩
  · intro a b th hline
    rcases personOps_shape t radius p op hops with ⟨pts, rfl⟩ | ⟨a2, b2, rfl⟩ | ⟨c2, rfl⟩
    · cases hline
    · rw [DrawOp.line.injEq] at hline
      exact hline.2.2.symm
    · cases hline
  · intro c r hcirc
    rcases personOps_shape t radius p op hops with ⟨pts, rfl⟩ | ⟨a2, b2, rfl⟩ | ⟨c2, rfl⟩
    · cases hcirc
    · cases hcirc
    · rw [DrawOp.circle.injEq] at hcirc
      exact hcirc.2.symm

/-- Counterexample to C6 as stated: at radius 2 the code emits the
shoulder–shoulder line with thickness `joint_radius = max(1, int(1.6)) = 1`,
but the claimed formula `max(1, round(radius*0.8))` gives 2. -/
theorem joint_thickness_round_cex :
    edgeOp 0 2 demoPose (5, 6)
      = some (DrawOp.line (kpPoint (demoPose 5)) (kpPoint (demoPose 6)) (jointRadius 2)) ∧
    ((jointRadius 2 : ℤ)) ≠ max 1 (round ((2 : ℚ) * (4 / 5))) := by
  constructor
  · rw [edgeOp, if_pos]
    constructor <;> norm_num [demoPose]
  · have h2 : round ((2 : ℚ) * (4 / 5)) = 2 := by
      rw [round_eq]
      norm_num
    rw [h2]
    decide

/-- Witness for C6 (amended) at radius 2 on `demoPose`. -/
theorem draw_thickness_trunc_witness :
    jointRadius 2 = max 1 (2 * 4 / 5) :=
  (draw_thickness_trunc 0 2 [demoPose]
    (DrawOp.line (kpPoint (demoPose 5)) (kpPoint (demoPose 6)) (jointRadius 2))
    (by
      unfold createMaskOps
      rw [List.mem_flatMap]
      refine ⟨demoPose, by simp, ?_⟩
      unfold personOps
      refine List.mem_append.mpr (Or.inl (List.mem_append.mpr (Or.inr ?_)))
      rw [List.mem_filterMap]
      refine ⟨(5, 6), by decide, ?_⟩
      rw [edgeOp, if_pos]
      constructor <;> norm_num [demoPose])).1

/-- C7: `apply_mask` returns a 4-channel frame whose alpha channel is the
mask value unmodified, and whose colour channels are the source colour
scaled by mask/255 blended toward white with weight 1 - mask/255 (within
the uint8 truncation of the write-back): mask 0 gives white, mask 255
keeps the source colour.  The embedding is a single uniform per-pixel
arithmetic formula with no per-pixel branching. -/
theorem apply_mask_blend (frame : Img) (mask : Mask) (y x ch : ℕ) (hch : ch < 3)
    (hc : frame.data y x ch ≤ 255) (hm : mask.data y x ≤ 255) :
    (apply_mask frame mask).c = 4 ∧
    (apply_mask frame mask).data y x 3 = mask.data y x ∧
    (((apply_mask frame mask).data y x ch : ℚ)
        ≤ applyMaskColorQ (frame.data y x ch) (mask.data y x) ∧
      applyMaskColorQ (frame.data y x ch) (mask.data y x)
        < ((apply_mask frame mask).data y x ch : ℚ) + 1) ∧
    (mask.data y x = 0 → (apply_mask frame mask).data y x ch = 255) ∧
    (mask.data y x = 255 → (apply_mask frame mask).data y x ch = frame.data y x ch) := by
  have hch3 : ch ≠ 3 := by omega
  have hdata : (apply_mask frame mask).data y x ch
      = clipToUint8 (applyMaskColorQ (frame.data y x ch) (mask.data y x)) := by
    simp [apply_mask, hch3]
  set c := frame.data y x ch with hcdef
  set m := mask.data y x with hmdef
  have hcq : ((c : ℚ)) ≤ 255 := by exact_mod_cast hc
  have hmq : ((m : ℚ)) ≤ 255 := by exact_mod_cast hm
  have hc0 : (0 : ℚ) ≤ (c : ℚ) := by positivity
  have hm0 : (0 : ℚ) ≤ (m : ℚ) := by positivity
  have hlo : (0 : ℚ) ≤ applyMaskColorQ c m := by
    unfold applyMaskColorQ
    nlinarith
  have hhi : applyMaskColorQ c m ≤ 255 := by
    unfold applyMaskColorQ
    nlinarith
  have hclip : clipToUint8 (applyMaskColorQ c m) = (⌊applyMaskColorQ c m⌋).toNat := by
    unfold clipToUint8
    rw [min_eq_right hhi, max_eq_right hlo]
  have hfl0 : (0 : ℤ) ≤ ⌊applyMaskColorQ c m⌋ := Int.floor_nonneg.mpr hlo
  have hcast : (((⌊applyMaskColorQ c m⌋).toNat : ℕ) : ℚ) = (⌊applyMaskColorQ c m⌋ : ℚ) := by
    exact_mod_cast Int.toNat_of_nonneg hfl0
  refine ⟨rfl, by simp [apply_mask], ⟨?_, ?_⟩, ?_, ?_⟩
  · rw [hdata, hclip, hcast]
    exact Int.floor_le _
  · rw [hdata, hclip, hcast]
    exact Int.lt_floor_add_one _
  · intro hm0'
    rw [hdata, hm0']
    unfold applyMaskColorQ clipToUint8
    norm_num
    decide
  · intro hm255
    rw [hdata, hm255]
    have : applyMaskColorQ c 255 = (c : ℚ) := by
      unfold applyMaskColorQ
      norm_num
    rw [this]
    unfold clipToUint8
    rw [min_eq_right hcq, max_eq_right hc0]
    simp

/-- Witness for C7 at a single pixel with colour 100 and mask 128. -/
theorem apply_mask_blend_witness :
    ((apply_mask { h := 1, w := 1, c := 3, data := fun _ _ _ => 100 }
        { h := 1, w := 1, data := fun _ _ => 128 }).data 0 0 0 : ℚ)
      ≤ applyMaskColorQ 100 128 :=
  (apply_mask_blend { h := 1, w := 1, c := 3, data := fun _ _ _ => 100 }
    { h := 1, w := 1, data := fun _ _ => 128 } 0 0 0 (by decide) (by decide)
    (by decide)).2.2.1.1

/-- C9: in the multi-pose branch of `detect_pose`, every person whose
whole-person score strictly exceeds the threshold is returned; its
keypoints whose confidence does not strictly exceed the threshold keep
coordinates (0, 0) while their raw confidence score is preserved, and
only keypoints strictly above the threshold carry the de-letterboxed,
clipped pixel coordinates. -/
theorem multipose_keypoint_gating (S h w : ℕ) (t : ℚ) (dets : List (ℚ × Person))
    (d : ℚ × Person) (hd : d ∈ dets) (hscore : d.1 > t) :
    multiPosePerson S h w t d.2 ∈ multiPoseOutput S h w t dets ∧
    ∀ i : Fin 17,
      (multiPosePerson S h w t d.2 i).s = (d.2 i).s ∧
      (¬((d.2 i).s > t) → multiPosePerson S h w t d.2 i = { y := 0, x := 0, s := (d.2 i).s }) ∧
      (((d.2 i).s > t) → multiPosePerson S h w t d.2 i =
        { y := deLetterboxY S h w (d.2 i).y, x := deLetterboxX S h w (d.2 i).x,
          s := (d.2 i).s }) := by
  constructor
  · unfold multiPoseOutput
    exact List.mem_map.mpr ⟨d, List.mem_filter.mpr ⟨hd, decide_eq_true hscore⟩, rfl⟩
  · intro i
    refine ⟨?_, ?_, ?_⟩
    · unfold multiPosePerson
      split <;> rfl
    · intro hlow
      rw [multiPosePerson, if_neg hlow]
    · intro hhigh
      rw [multiPosePerson, if_pos hhigh]

/-- Witness for C9: `demoRawPose` with person score 1 and threshold 1/2;
keypoint 0 (confidence 1/4) is zeroed with its score kept. -/
theorem multipose_keypoint_gating_witness :
    multiPosePerson 256 4 4 (1 / 2) demoRawPose 0
      = { y := 0, x := 0, s := (demoRawPose 0).s } :=
  ((multipose_keypoint_gating 256 4 4 (1 / 2) [(1, demoRawPose)] (1, demoRawPose)
    (List.mem_singleton.mpr rfl) (by norm_num)).2 0).2.1 (by norm_num [demoRawPose])

/-- C10: in the ordered-write loop of `process_video`, when the buffered
result for the next index to write is None or has the wrong shape,
nothing is written to the sink and `frames_written` is not incremented,
yet the cursor still advances and the loop continues, silently omitting
that frame from the output. -/
theorem invalid_frame_skipped (th tw : ℕ) (s : PState) (r : Option Img) (fuel : ℕ)
    (hget : dictGet s.results s.next = some r) (hinv : validFrame th tw r = false) :
    (writeStep th tw s r).sinkIdx = s.sinkIdx ∧
    (writeStep th tw s r).framesWritten = s.framesWritten ∧
    (writeStep th tw s r).next = s.next + 1 ∧
    (writeStep th tw s r).results = dictRemove s.results s.next ∧
    drainLoop th tw (fuel + 1) s = drainLoop th tw fuel (writeStep th tw s r) := by
  refine ⟨?_, ?_, ?_, ?_, ?_⟩
  · rw [writeStep, if_neg (by rw [hinv]; exact Bool.false_ne_true)]
  · rw [writeStep, if_neg (by rw [hinv]; exact Bool.false_ne_true)]
  · rw [writeStep, if_neg (by rw [hinv]; exact Bool.false_ne_true)]
  · rw [writeStep, if_neg (by rw [hinv]; exact Bool.false_ne_true)]
  · rw [drainLoop, hget]

/-- Witness for C10 on `demoPState`, whose buffered result for index 0
is None. -/
theorem invalid_frame_skipped_witness :
    (writeStep 2 2 demoPState none).framesWritten = demoPState.framesWritten ∧
    (writeStep 2 2 demoPState none).next = demoPState.next + 1 :=
  ⟨(invalid_frame_skipped 2 2 demoPState none 0 rfl rfl).2.1,
   (invalid_frame_skipped 2 2 demoPState none 0 rfl rfl).2.2.1⟩

/-- Sampling a mask whose data is identically zero gives zero. -/
lemma getPix_zero (m : Mask) (hm : ∀ a b, m.data a b = 0) (y x : ℤ) :
    getPix m y x = 0 := by
  unfold getPix
  split
  · exact hm _ _
  · rfl

/-- One dilation round maps an identically-zero mask to zero. -/
lemma dilate3_data_zero (m : Mask) (hm : ∀ a b, m.data a b = 0) (y x : ℕ) :
    (dilate3 m).data y x = 0 := by
  show (offsets3.map fun d => getPix m ((y : ℤ) + d.1) ((x : ℤ) + d.2)).foldr max 0 = 0
  simp [offsets3, getPix_zero m hm]

/-- Iterated dilation preserves the height field. -/
lemma dilateN_h (n : ℕ) (m : Mask) : (dilateN n m).h = m.h := by
  induction n generalizing m with
  | zero => rfl
  | succ k ih => exact ih (dilate3 m)

/-- Iterated dilation preserves the width field. -/
lemma dilateN_w (n : ℕ) (m : Mask) : (dilateN n m).w = m.w := by
  induction n generalizing m with
  | zero => rfl
  | succ k ih => exact ih (dilate3 m)

/-- Iterated dilation maps an identically-zero mask to zero. -/
lemma dilateN_data_zero (n : ℕ) (m : Mask) (hm : ∀ a b, m.data a b = 0) (y x : ℕ) :
    (dilateN n m).data y x = 0 := by
  induction n generalizing m with
  | zero => exact hm y x
  | succ k ih => exact ih (dilate3 m) (dilate3_data_zero m hm)

/-- Clamped sampling of an identically-zero mask gives zero. -/
lemma getPixClamp_zero (m : Mask) (hm : ∀ a b, m.data a b = 0) (y x : ℤ) :
    getPixClamp m y x = 0 := hm _ _

/-- Any kernel applied to identically-zero samples sums to zero: the
blur-kernel coefficients are irrelevant to zero preservation. -/
lemma weightedSum_zero (k : List ℚ) (f : ℕ → ℚ) (hf : ∀ i, f i = 0) :
    weightedSum k f = 0 := by
  unfold weightedSum
  apply List.sum_eq_zero
  intro q hq
  rcases List.mem_map.mp hq with ⟨p, _, rfl⟩
  rw [hf]
  ring

/-- The horizontal blur pass maps an identically-zero mask to zero. -/
lemma convRow_data_zero (k : List ℚ) (m : Mask) (hm : ∀ a b, m.data a b = 0) (y x : ℕ) :
    (convRow k m).data y x = 0 := by
  show ratRound (weightedSum k _) = 0
  rw [weightedSum_zero]
  · simp [ratRound]
  · intro i
    rw [getPixClamp_zero m hm]
    norm_num

/-- The vertical blur pass maps an identically-zero mask to zero. -/
lemma convCol_data_zero (k : List ℚ) (m : Mask) (hm : ∀ a b, m.data a b = 0) (y x : ℕ) :
    (convCol k m).data y x = 0 := by
  show ratRound (weightedSum k _) = 0
  rw [weightedSum_zero]
  · simp [ratRound]
  · intro i
    rw [getPixClamp_zero m hm]
    norm_num

/-- The blur maps an identically-zero mask to zero. -/
lemma gaussBlur_data_zero (ksize : ℕ) (m : Mask) (hm : ∀ a b, m.data a b = 0) (y x : ℕ) :
    (gaussBlur ksize m).data y x = 0 :=
  convCol_data_zero _ _ (convRow_data_zero _ m hm) y x

/-- The dilation and blur post-passes map an identically-zero mask to an
identically-zero mask of the same dimensions. -/
lemma postprocess_zero (dil blur : ℕ) (m : Mask) (hm : ∀ a b, m.data a b = 0) :
    (postprocess dil blur m).h = m.h ∧ (postprocess dil blur m).w = m.w ∧
    ∀ y x, (postprocess dil blur m).data y x = 0 := by
  have s1h : (dilStep dil m).h = m.h := by
    unfold dilStep
    split
    · exact dilateN_h dil m
    · rfl
  have s1w : (dilStep dil m).w = m.w := by
    unfold dilStep
    split
    · exact dilateN_w dil m
    · rfl
  have s1z : ∀ a b, (dilStep dil m).data a b = 0 := by
    intro a b
    unfold dilStep
    split
    · exact dilateN_data_zero dil m hm a b
    · exact hm a b
  unfold postprocess
  split
  · exact ⟨s1h, s1w, fun y x => gaussBlur_data_zero _ _ s1z y x⟩
  · exact ⟨s1h, s1w, s1z⟩

/-- C8: `create_mask` on a None pose list or on an empty pose list
returns an all-zero mask whose dimensions equal the frame's height and
width, for every threshold, radius, dilation iteration count and blur
kernel size — in particular the final dilation and blur passes map an
all-zero mask to an all-zero mask. -/
theorem create_mask_empty_zero (h w : ℕ) (t : ℚ) (radius dil blur : ℕ) :
    ((create_mask h w none t radius dil blur).h = h ∧
     (create_mask h w none t radius dil blur).w = w ∧
     ∀ y x, (create_mask h w none t radius dil blur).data y x = 0) ∧
    ((create_mask h w (some []) t radius dil blur).h = h ∧
     (create_mask h w (some []) t radius dil blur).w = w ∧
     ∀ y x, (create_mask h w (some []) t radius dil blur).data y x = 0) := by
  constructor
  · exact ⟨rfl, rfl, fun y x => rfl⟩
  · have hz : ∀ a b, (rasterize (zeroMask h w) (createMaskOps [] t radius)).data a b = 0 := by
      intro a b
      rfl
    have hpost := postprocess_zero dil blur
      (rasterize (zeroMask h w) (createMaskOps [] t radius)) hz
    exact ⟨hpost.1, hpost.2.1, hpost.2.2⟩

/-- Lookup fails exactly when the key is absent from the buffer. -/
lemma dictGet_eq_none_iff {A : Type} (l : List (ℕ × A)) (i : ℕ) :
    dictGet l i = none ↔ i ∉ l.map Prod.fst := by
  induction l with
  | nil => simp [dictGet]
  | cons a rest ih =>
      obtain ⟨k, v⟩ := a
      by_cases hk : k = i
      · subst hk
        simp [dictGet]
      · simp [dictGet, hk, ih, Ne.symm hk]

/-- A successful lookup exhibits a buffer entry. -/
lemma dictGet_mem {A : Type} {l : List (ℕ × A)} {i : ℕ} {v : A}
    (h : dictGet l i = some v) : (i, v) ∈ l := by
  induction l with
  | nil => simp [dictGet] at h
  | cons a rest ih =>
      obtain ⟨k, w⟩ := a
      by_cases hk : k = i
      · subst hk
        rw [dictGet, if_pos rfl] at h
        rw [← Option.some_inj.mp h]
        exact List.mem_cons_self _ _

      · rw [dictGet, if_neg hk] at h
        exact List.mem_cons_of_mem _ (ih h)

/-- Removing a key removes exactly its first occurrence from the key list. -/
lemma dictRemove_map_fst {A : Type} (l : List (ℕ × A)) (i : ℕ) :
    (dictRemove l i).map Prod.fst = (l.map Prod.fst).erase i := by
  induction l with
  | nil => rfl
  | cons a rest ih =>
      obtain ⟨k, v⟩ := a
      by_cases hk : k = i
      · subst hk
        rw [dictRemove, if_pos rfl]
        simp [List.erase_cons]
      · rw [dictRemove, if_neg hk]
        simp [List.erase_cons, hk, ih]

/-- Entries surviving a removal were already in the buffer. -/
lemma dictRemove_subset {A : Type} (l : List (ℕ × A)) (i : ℕ) :
    ∀ a ∈ dictRemove l i, a ∈ l := by
  induction l with
  | nil =>
      intro a ha
      simp [dictRemove] at ha
  | cons b rest ih =>
      obtain ⟨k, v⟩ := b
      intro a ha
      by_cases hk : k = i
      · subst hk
        rw [dictRemove, if_pos rfl] at ha
        exact List.mem_cons_of_mem _ ha
      · rw [dictRemove, if_neg hk] at ha
        rcases List.mem_cons.mp ha with h1 | h2
        · rw [h1]
          exact List.mem_cons_self _ _
        · exact List.mem_cons_of_mem _ (ih a h2)

/-- Removing a present key shortens the buffer by exactly one. -/
lemma dictRemove_length {A : Type} {l : List (ℕ × A)} {i : ℕ} {v : A}
    (h : dictGet l i = some v) : (dictRemove l i).length + 1 = l.length := by
  induction l with
  | nil => simp [dictGet] at h
  | cons a rest ih =>
      obtain ⟨k, w⟩ := a
      by_cases hk : k = i
      · subst hk
        rw [dictRemove, if_pos rfl]
        rfl
      · rw [dictGet, if_neg hk] at h
        rw [dictRemove, if_neg hk]
        simp only [List.length_cons]
        rw [ih h]

/-- On a valid result the write iteration appends to the sink, counts
the frame, and advances the cursor. -/
lemma writeStep_valid (th tw : ℕ) (s : PState) (r : Option Img)
    (hval : validFrame th tw r = true) :
    writeStep th tw s r =
      { next := s.next + 1, results := dictRemove s.results s.next,
        sinkIdx := s.sinkIdx ++ [s.next], framesWritten := s.framesWritten + 1 } := by
  rw [writeStep, if_pos hval]

/-- The drain loop preserves the loop invariant, and afterwards the
cursor points at an index that is not buffered. -/
lemma drainLoop_inv (th tw : ℕ) (arrived : List ℕ) :
    ∀ (fuel : ℕ) (s : PState), LoopInv th tw arrived s → s.results.length ≤ fuel →
      LoopInv th tw arrived (drainLoop th tw fuel s) ∧
      (drainLoop th tw fuel s).next ∉ (drainLoop th tw fuel s).results.map Prod.fst := by
  intro fuel
  induction fuel with
  | zero =>
      intro s hInv hlen
      have hnil : s.results = [] := List.length_eq_zero.mp (Nat.le_zero.mp hlen)
      rw [drainLoop]
      refine ⟨hInv, ?_⟩
      rw [hnil]
      simp
  | succ f ih =>
      intro s hInv hlen
      cases hget : dictGet s.results s.next with
      | none =>
          simp only [drainLoop, hget]
          exact ⟨hInv, (dictGet_eq_none_iff _ _).mp hget⟩
      | some r =>
          simp only [drainLoop, hget]
          obtain ⟨h1, h2, h3, h4, h5, h6⟩ := hInv
          have hmem : (s.next, r) ∈ s.results := dictGet_mem hget
          have hval : validFrame th tw r = true := h6 _ hmem
          have hkey : s.next ∈ s.results.map Prod.fst := List.mem_map.mpr ⟨_, hmem, rfl⟩
          have hnextArr : s.next ∈ arrived := ((h4 s.next).mp hkey).1
          rw [writeStep_valid th tw s r hval]
          apply ih
          · refine ⟨?_, ?_, ?_, ?_, ?_, ?_⟩
            · show s.sinkIdx ++ [s.next] = List.range (s.next + 1)
              rw [h1, List.range_succ]
            · show s.framesWritten + 1 = s.next + 1
              rw [h2]
            · show ((dictRemove s.results s.next).map Prod.fst).Nodup
              rw [dictRemove_map_fst]
              exact h3.erase _
            · intro i
              show i ∈ (dictRemove s.results s.next).map Prod.fst
                ↔ (i ∈ arrived ∧ s.next + 1 ≤ i)
              rw [dictRemove_map_fst, h3.mem_erase_iff]
              constructor
              · rintro ⟨hne, hk⟩
                obtain ⟨ha, hle⟩ := (h4 i).mp hk
                exact ⟨ha, by omega⟩
              · rintro ⟨ha, hle⟩
                exact ⟨by omega, (h4 i).mpr ⟨ha, by omega⟩⟩
            · intro i hi
              have hi2 : i < s.next + 1 := hi
              rcases Nat.lt_succ_iff_lt_or_eq.mp hi2 with h | h
              · exact h5 i h
              · rw [h]
                exact hnextArr
            · intro a ha
              exact h6 a (dictRemove_subset _ _ a ha)
          · show (dictRemove s.results s.next).length ≤ f
            have hlen2 := dictRemove_length hget
            omega

/-- Inserting a fresh valid result and draining preserves the invariant
relative to the extended arrival set. -/
lemma pipeStep_inv (th tw : ℕ) (arrived : List ℕ) (s : PState) (a : ℕ × Option Img)
    (hInv : LoopInv th tw arrived s)
    (_hpost : s.next ∉ s.results.map Prod.fst)
    (hfresh : a.1 ∉ arrived)
    (hval : validFrame th tw a.2 = true) :
    LoopInv th tw (arrived ++ [a.1]) (pipeStep th tw s a) ∧
    (pipeStep th tw s a).next ∉ (pipeStep th tw s a).results.map Prod.fst := by
  obtain ⟨h1, h2, h3, h4, h5, h6⟩ := hInv
  have hnotKey : ∀ i, i ∈ s.results.map Prod.fst → i ≠ a.1 := by
    intro i hi he
    exact hfresh (he ▸ ((h4 i).mp hi).1)
  have hnext_le : s.next ≤ a.1 := by
    by_contra hlt
    push_neg at hlt
    exact hfresh (h5 a.1 hlt)
  have hInv2 : LoopInv th tw (arrived ++ [a.1]) { s with results := s.results ++ [a] } := by
    refine ⟨h1, h2, ?_, ?_, ?_, ?_⟩
    · show ((s.results ++ [a]).map Prod.fst).Nodup
      rw [List.map_append]
      refine List.Nodup.append h3 (by simp) ?_
      intro i hi hj
      simp only [List.map_cons, List.map_nil, List.mem_singleton] at hj
      exact hnotKey i hi hj
    · intro i
      show i ∈ (s.results ++ [a]).map Prod.fst ↔ (i ∈ arrived ++ [a.1] ∧ s.next ≤ i)
      rw [List.map_append]
      simp only [List.mem_append, List.map_cons, List.map_nil, List.mem_singleton]
      constructor
      · rintro (hk | rfl)
        · obtain ⟨ha, hle⟩ := (h4 i).mp hk
          exact ⟨Or.inl ha, hle⟩
        · exact ⟨Or.inr rfl, hnext_le⟩
      · rintro ⟨ha | rfl, hle⟩
        · exact Or.inl ((h4 i).mpr ⟨ha, hle⟩)
        · exact Or.inr rfl
    · intro i hi
      exact List.mem_append_left _ (h5 i hi)
    · intro b hb
      rcases List.mem_append.mp hb with hb1 | hb2
      · exact h6 b hb1
      · rw [List.mem_singleton.mp hb2]
        exact hval
  have := drainLoop_inv th tw (arrived ++ [a.1])
    ({ s with results := s.results ++ [a] } : PState).results.length
    { s with results := s.results ++ [a] } hInv2 (le_refl _)
  exact this

/-- The invariant is carried through any arrival order by the fold of
the processing loop. -/
lemma loop_fold_inv (th tw : ℕ) :
    ∀ (l : List (ℕ × Option Img)) (arrived : List ℕ) (s : PState),
      LoopInv th tw arrived s →
      s.next ∉ s.results.map Prod.fst →
      (arrived ++ l.map Prod.fst).Nodup →
      (∀ a ∈ l, validFrame th tw a.2 = true) →
      LoopInv th tw (arrived ++ l.map Prod.fst) (l.foldl (pipeStep th tw) s) ∧
      (l.foldl (pipeStep th tw) s).next
        ∉ (l.foldl (pipeStep th tw) s).results.map Prod.fst := by
  intro l
  induction l with
  | nil =>
      intro arrived s hInv hpost _ _
      simp only [List.map_nil, List.append_nil, List.foldl_nil]
      exact ⟨hInv, hpost⟩
  | cons a rest ih =>
      intro arrived s hInv hpost hnodup hval
      have hfresh : a.1 ∉ arrived := by
        intro hmem
        rw [List.nodup_append] at hnodup
        exact hnodup.2.2 hmem (by simp)
      have hstep := pipeStep_inv th tw arrived s a hInv hpost hfresh
        (hval a (List.mem_cons_self _ _))
      have hrec := ih (arrived ++ [a.1]) (pipeStep th tw s a) hstep.1 hstep.2
        (by simpa using hnodup)
        (fun b hb => hval b (List.mem_cons_of_mem _ hb))
      simpa using hrec

/-- The invariant holds at pipeline start. -/
lemma initPState_inv (th tw : ℕ) : LoopInv th tw [] initPState := by
  refine ⟨rfl, rfl, List.nodup_nil, ?_, ?_, ?_⟩
  · intro i
    simp [initPState]
  · intro i hi
    simp [initPState] at hi
  · intro a ha
    simp [initPState] at ha

/-- At pipeline start nothing is buffered at the cursor. -/
lemma initPState_post : initPState.next ∉ initPState.results.map Prod.fst := by
  simp [initPState]

/-- When results for exactly the indices 0..N-1 arrive, all valid, the
loop ends with cursor N, sink contents 0..N-1 in order, and
`frames_written = N`. -/
lemma process_video_loop_complete (th tw N : ℕ) (arrivals : List (ℕ × Option Img))
    (hkeys : List.Perm (arrivals.map Prod.fst) (List.range N))
    (hval : ∀ a ∈ arrivals, validFrame th tw a.2 = true) :
    (process_video_loop th tw arrivals).next = N ∧
    (process_video_loop th tw arrivals).sinkIdx = List.range N ∧
    (process_video_loop th tw arrivals).framesWritten = N := by
  show (arrivals.foldl (pipeStep th tw) initPState).next = N ∧
    (arrivals.foldl (pipeStep th tw) initPState).sinkIdx = List.range N ∧
    (arrivals.foldl (pipeStep th tw) initPState).framesWritten = N
  have hndAll : (arrivals.map Prod.fst).Nodup :=
    hkeys.nodup_iff.mpr (List.nodup_range N)
  have hfold := loop_fold_inv th tw arrivals [] initPState (initPState_inv th tw)
    initPState_post (by simpa using hndAll) hval
  rw [List.nil_append] at hfold
  obtain ⟨⟨h1, h2, h3, h4, h5, h6⟩, hpost2⟩ := hfold
  have hmemArr : ∀ i, i ∈ arrivals.map Prod.fst ↔ i < N := by
    intro i
    rw [hkeys.mem_iff, List.mem_range]
  have hnextNot : (arrivals.foldl (pipeStep th tw) initPState).next
      ∉ arrivals.map Prod.fst := by
    intro hmem
    exact hpost2 ((h4 _).mpr ⟨hmem, le_refl _⟩)
  have hge : N ≤ (arrivals.foldl (pipeStep th tw) initPState).next := by
    by_contra hlt
    push_neg at hlt
    exact hnextNot ((hmemArr _).mpr hlt)
  have hle : (arrivals.foldl (pipeStep th tw) initPState).next ≤ N := by
    by_contra hgt
    push_neg at hgt
    have hmem := (hmemArr N).mp (h5 N hgt)
    omega
  have hN : (arrivals.foldl (pipeStep th tw) initPState).next = N := le_antisymm hle hge
  refine ⟨hN, ?_, ?_⟩
  · rw [h1, hN]
  · rw [h2, hN]

/-- C1: for every run of the `process_video` loop in which valid results
for frame indices 0..N-1 are completed by workers in an arbitrary order,
the frame indices written to the sink are exactly 0, 1, ..., N-1 in
strictly increasing order, with no gaps and no repeats; along every step
of the run the sink content equals 0..cursor-1, i.e. a result for index
i is written exactly when all indices below i have been written. -/
theorem process_video_in_order (N th tw : ℕ) (arrivals : List (ℕ × Option Img))
    (hkeys : List.Perm (arrivals.map Prod.fst) (List.range N))
    (hval : ∀ a ∈ arrivals, validFrame th tw a.2 = true) :
    (process_video_loop th tw arrivals).sinkIdx = List.range N ∧
    ∀ p, p <+: arrivals →
      (process_video_loop th tw p).sinkIdx
        = List.range (process_video_loop th tw p).next := by
  constructor
  · exact (process_video_loop_complete th tw N arrivals hkeys hval).2.1
  · intro p hp
    have hndAll : (arrivals.map Prod.fst).Nodup :=
      hkeys.nodup_iff.mpr (List.nodup_range N)
    have hsub : List.Sublist (p.map Prod.fst) (arrivals.map Prod.fst) :=
      (hp.sublist).map _
    have hnd : (p.map Prod.fst).Nodup := List.Nodup.sublist hsub hndAll
    have hvp : ∀ a ∈ p, validFrame th tw a.2 = true :=
      fun a ha => hval a (hp.subset ha)
    have hfold := loop_fold_inv th tw p [] initPState (initPState_inv th tw)
      initPState_post (by simpa using hnd) hvp
    rw [List.nil_append] at hfold
    exact hfold.1.1

/-- Witness for C1: three valid results completing in the order 1, 0, 2
are written to the sink as 0, 1, 2. -/
theorem process_video_in_order_witness :
    (process_video_loop 2 2 demoArrivalsA).sinkIdx = List.range 3 :=
  (process_video_in_order 3 2 2 demoArrivalsA (by decide) (by decide)).1

/-- C2: a frame whose processing raises still yields a Result for its
index containing the blank all-zero (hence zero-alpha) frame of the
target dimensions instead of propagating the exception, and when the
sink never fails a run over outcomes for frames 0..N-1 completes with
`frames_written = N`. -/
theorem process_frame_resilient (th tw N : ℕ) (oc : ℕ → Except Unit Img)
    (hok : ∀ i r, oc i = Except.ok r → validFrame th tw (some r) = true)
    (arrivals : List (ℕ × Option Img))
    (hperm : List.Perm arrivals ((List.range N).map
      (fun i => ((process_frame th tw i (oc i)).1, some (process_frame th tw i (oc i)).2)))) :
    (∀ i e, oc i = Except.error e → process_frame th tw i (oc i) = (i, blankImg th tw)) ∧
    (blankImg th tw).h = th ∧ (blankImg th tw).w = tw ∧ (blankImg th tw).c = 4 ∧
    (∀ y x ch, (blankImg th tw).data y x ch = 0) ∧
    (process_video_loop th tw arrivals).framesWritten = N := by
  refine ⟨?_, rfl, rfl, rfl, fun _ _ _ => rfl, ?_⟩
  · intro i e he
    simp [process_frame, he]
  · have hfst : ∀ i : ℕ, (process_frame th tw i (oc i)).1 = i := by
      intro i
      cases h : oc i <;> simp [process_frame, h]
    have h1 : List.Perm (arrivals.map Prod.fst)
        (((List.range N).map (fun i =>
          ((process_frame th tw i (oc i)).1,
            some (process_frame th tw i (oc i)).2))).map Prod.fst) := hperm.map _
    rw [List.map_map] at h1
    have h2 : (List.range N).map (Prod.fst ∘ fun i =>
        ((process_frame th tw i (oc i)).1, some (process_frame th tw i (oc i)).2))
        = List.range N := by
      have hcomp : ∀ i ∈ List.range N, (Prod.fst ∘ fun i =>
          ((process_frame th tw i (oc i)).1, some (process_frame th tw i (oc i)).2)) i
          = id i := fun i _ => hfst i
      rw [List.map_congr_left hcomp, List.map_id]
    rw [h2] at h1
    have hval : ∀ a ∈ arrivals, validFrame th tw a.2 = true := by
      intro a ha
      obtain ⟨i, _, rfl⟩ := List.mem_map.mp (hperm.mem_iff.mp ha)
      cases h : oc i with
      | ok r =>
          have hv := hok i r h
          simpa [process_frame, h] using hv
      | error e =>
          simp [process_frame, h, validFrame, blankImg]
    exact (process_video_loop_complete th tw N arrivals h1 hval).2.2

/-- Witness for C2: a two-frame run where frame 0 raises and frame 1
succeeds still writes both frames. -/
theorem process_frame_resilient_witness :
    (process_video_loop 2 2 demoArrivalsB).framesWritten = 2 :=
  (process_frame_resilient 2 2 2 demoOutcome
    (by
      intro i r h
      by_cases hi : i = 0
      · rw [hi] at h
        simp [demoOutcome] at h
      · simp [demoOutcome, hi] at h
        rw [← h]
        rfl)
    demoArrivalsB (List.Perm.refl _)).2.2.2.2.2

end Skeletor
